import Mathlib

/-!
Verification of `parser.py` (Howltout/Parser).

A shallow embedding of the command-line text-analysis utility in `src/parser.py`.
Text is modelled as `List Char`.  The Python regex constructs used by the source
are embedded for the ASCII fragment they are exercised on:

* `re.findall(r'\w+', text.lower())` — maximal runs of word characters
  (ASCII letters, digits, underscore) of the lowercased text (`wordRuns`,
  `pythonTokens`);
* `str.lower()` — ASCII lowercasing (`lowerChar`, `toLowerL`);
* `str.splitlines()` — splitting at line-boundary characters, with `"\r\n"`
  treated as a single boundary and no empty segment after a trailing boundary
  (`splitlines`);
* `collections.Counter` — a tally keyed in first-occurrence order (`tally`)
  with absent keys reported as 0 (`counterGet`), and `Counter.most_common(n)`
  — a stable descending sort by count truncated to `n` entries (`most_common`);
* `re.subn(re.compile(r'\b' + re.escape(old) + r'\b', re.IGNORECASE), new, text)`
  — a left-to-right scan replacing every non-overlapping case-insensitive
  occurrence of the literal `old` that is anchored at a word boundary on both
  sides (`subnF`, driven by one character of look-behind `prev`; the fuel
  argument is `text.length + 1`, enough for the whole scan).

The dispatcher `process_file` is embedded over an `Args` structure mirroring the
`argparse.Namespace` fields, with Python truthiness of each field made explicit
(`None`/empty string/`0` are falsy).  File I/O is out of scope: the loaded file
content is a parameter, and the conditional write of the replacement output is
recorded as a boolean (`writeOk` says whether a write would succeed, the second
component of the result records whether a write was attempted).
-/

/-- A word character in the sense of the regex `\w` on the ASCII range:
letters `A`–`Z` and `a`–`z`, digits `0`–`9`, and underscore. -/
def isWordChar (c : Char) : Bool :=
  decide ((65 ≤ c.toNat ∧ c.toNat ≤ 90) ∨ (97 ≤ c.toNat ∧ c.toNat ≤ 122) ∨
    (48 ≤ c.toNat ∧ c.toNat ≤ 57) ∨ c.toNat = 95)

/-- ASCII lowercasing of one character, as performed by Python `str.lower`
on the basic latin range (and identically by `Char.toLower`). -/
def lowerChar (c : Char) : Char :=
  if 65 ≤ c.toNat ∧ c.toNat ≤ 90 then Char.ofNat (c.toNat + 32) else c

/-- Lowercasing of a text, modelling `text.lower()`. -/
def toLowerL (s : List Char) : List Char :=
  s.map lowerChar

/-- Word-character test on the optional character adjacent to a position
(`none` stands for the edge of the text, which is not a word character). -/
def isWordOpt : Option Char → Bool
  | none => false
  | some c => isWordChar c

/-- The regex word-boundary assertion `\b` between two adjacent (optional)
characters: exactly one of the two sides is a word character. -/
def boundaryB (a b : Option Char) : Bool :=
  isWordOpt a != isWordOpt b

/-- Accumulator-based extraction of the maximal runs of word characters,
embedding `re.findall(r'\w+', s)`.  `acc` holds the reversed run in progress. -/
def wordRunsAux (acc : List Char) : List Char → List (List Char)
  | [] => if acc.isEmpty then [] else [acc.reverse]
  | c :: cs =>
    if isWordChar c then wordRunsAux (c :: acc) cs
    else if acc.isEmpty then wordRunsAux [] cs
    else acc.reverse :: wordRunsAux [] cs

/-- The maximal runs of word characters of a text: `re.findall(r'\w+', s)`. -/
def wordRuns (s : List Char) : List (List Char) :=
  wordRunsAux [] s

/-- The token list `re.findall(r'\w+', text.lower())` used throughout
`parser.py` (lines 16, 51, 80). -/
def pythonTokens (s : List Char) : List (List Char) :=
  wordRuns (toLowerL s)

/-- Model of `count_words` (parser.py lines 16-17): the number of tokens. -/
def count_words (text : List Char) : Nat :=
  (pythonTokens text).length

/-- Model of `count_chars` (parser.py line 28): the number of characters. -/
def count_chars (text : List Char) : Nat :=
  text.length

/-- A line-boundary character for Python `str.splitlines`:
`\n`, `\r`, `\v`, `\f`, the ASCII separators `\x1c`–`\x1e`, `\x85`,
and the Unicode line/paragraph separators. -/
def isLineBreak (c : Char) : Bool :=
  c = '\n' || c = '\r' || c = '\x0b' || c = '\x0c' ||
  c = '\x1c' || c = '\x1d' || c = '\x1e' || c = '\x85' ||
  c = '\u2028' || c = '\u2029'

/-- Accumulator-based embedding of `str.splitlines`: split at line-boundary
characters, treat `"\r\n"` as one boundary, and do not produce an extra empty
segment for a trailing boundary.  `afterCR` records that the previous character
was `'\r'`, whose boundary has already been emitted, so that a directly
following `'\n'` is swallowed. -/
def splitlinesAux (afterCR : Bool) (acc : List Char) : List Char → List (List Char)
  | [] => if acc.isEmpty then [] else [acc.reverse]
  | c :: cs =>
    if afterCR && c = '\n' then splitlinesAux false acc cs
    else if c = '\r' then acc.reverse :: splitlinesAux true [] cs
    else if isLineBreak c then acc.reverse :: splitlinesAux false [] cs
    else splitlinesAux false (c :: acc) cs

/-- The line segments of a text, modelling `text.splitlines()`. -/
def splitlines (s : List Char) : List (List Char) :=
  splitlinesAux false [] s

/-- Model of `count_lines` (parser.py line 39): `len(text.splitlines())`. -/
def count_lines (text : List Char) : Nat :=
  (splitlines text).length

/-- The keys of a `collections.Counter` built from `l`, in insertion order,
i.e. the distinct elements of `l` in order of first occurrence; `seen`
accumulates the keys already emitted. -/
def firstOccsAux (seen : List (List Char)) : List (List Char) → List (List Char)
  | [] => []
  | t :: ts =>
    if t ∈ seen then firstOccsAux seen ts
    else t :: firstOccsAux (t :: seen) ts

/-- Model of `collections.Counter(l)` as an association list: the distinct elements of
`l` in first-occurrence order, each paired with its multiplicity in `l`. -/
def tally (l : List (List Char)) : List (List Char × Nat) :=
  (firstOccsAux [] l).map (fun t => (t, l.count t))

/-- Lookup in a `Counter`: a missing key reports 0. -/
def counterGet (m : List (List Char × Nat)) (k : List Char) : Nat :=
  match m.find? (fun p => p.1 == k) with
  | some p => p.2
  | none => 0

/-- Model of `find_word` (parser.py lines 51-53): the count, under the token `Counter`
of the lowercased text, of the lowercased target word.  (The source wraps this
single count in a one-entry dictionary keyed by the original word; the
dispatcher immediately looks that key up again, so the embedding returns the
count itself.) -/
def find_word (text word : List Char) : Nat :=
  counterGet (tally (pythonTokens text)) (toLowerL word)

/-- Stable descending insertion (by count) into an already sorted list: the
new entry goes in front of the first entry with a count not above its own, so
entries with equal counts keep their relative order. -/
def insertDesc (p : List Char × Nat) :
    List (List Char × Nat) → List (List Char × Nat)
  | [] => [p]
  | q :: qs => if q.2 ≤ p.2 then p :: q :: qs else q :: insertDesc p qs

/-- Stable sort by descending count (insertion sort). -/
def sortDesc : List (List Char × Nat) → List (List Char × Nat)
  | [] => []
  | p :: ps => insertDesc p (sortDesc ps)

/-- Model of `Counter.most_common(n)`: entries sorted by descending count —
stably, so that entries with equal counts keep their insertion
(first-occurrence) order, which is what `heapq.nlargest` produces — truncated
to `n` entries; a non-positive `n` yields the empty list. -/
def most_common (m : List (List Char × Nat)) (n : Int) : List (List Char × Nat) :=
  (sortDesc m).take n.toNat

/-- Model of `get_word_frequency` (parser.py lines 80-81):
`Counter(re.findall(r'\w+', text.lower())).most_common(top_n)`. -/
def get_word_frequency (text : List Char) (top_n : Int) : List (List Char × Nat) :=
  most_common (tally (pythonTokens text)) top_n

/-- The last character of `l`, or `p` when `l` is empty: the character that
precedes the position immediately after `l`, given that `p` precedes `l`. -/
def lastOr (l : List Char) (p : Option Char) : Option Char :=
  match l.getLast? with
  | some c => some c
  | none => p

/-- Does the compiled pattern `\b` + `re.escape(old)` + `\b` (IGNORECASE) match
at the current position of the scan?  `prev` is the character just before the
position (`none` at the start of the text) and `s` the rest of the text.  The
literal `old` must occur case-insensitively at the position and the positions
before and after the occurrence must both be word boundaries. -/
def matchAt (old : List Char) (prev : Option Char) (s : List Char) : Bool :=
  decide (toLowerL (s.take old.length) = toLowerL old) &&
  boundaryB prev s.head? &&
  boundaryB (lastOr (s.take old.length) prev) ((s.drop old.length).head?)

/-- The scan of `re.subn`: at each position, if the whole-word pattern matches,
emit `new` and skip the matched occurrence (for an empty `old`, emit `new` and
advance one character, as Python does for zero-width matches); otherwise copy
one character.  Returns the rewritten text and the number of substitutions.
The fuel argument makes the recursion structural; any `fuel ≥ s.length`
computes the full scan. -/
def subnF (old new : List Char) : Nat → Option Char → List Char → List Char × Nat
  | _, prev, [] =>
    if old.isEmpty && boundaryB prev none then (new, 1) else ([], 0)
  | 0, _, c :: cs => (c :: cs, 0)
  | fuel + 1, prev, c :: cs =>
    if matchAt old prev (c :: cs) then
      if old.isEmpty then
        let r := subnF old new fuel (some c) cs
        (new ++ c :: r.1, r.2 + 1)
      else
        let r := subnF old new fuel (lastOr ((c :: cs).take old.length) prev)
          ((c :: cs).drop old.length)
        (new ++ r.1, r.2 + 1)
    else
      let r := subnF old new fuel (some c) cs
      (c :: r.1, r.2)

/-- Model of `replace_word` (parser.py lines 66-68):
`re.subn(re.compile(r'\b' + re.escape(old_word) + r'\b', re.IGNORECASE),
new_word, text)` — every non-overlapping case-insensitive whole-word occurrence
of `old_word` is replaced by `new_word` verbatim, and the number of
replacements is returned alongside the new text. -/
def replace_word (text old_word new_word : List Char) : List Char × Nat :=
  subnF old_word new_word (text.length + 1) none text

/-- One printed result line of `process_file`, with the data interpolated into
the corresponding f-string. -/
inductive ResultLine where
  | wordCount (n : Nat)
  | charCount (n : Nat)
  | lineCount (n : Nat)
  | findResult (word : List Char) (n : Nat)
  | replaced (old_word new_word : List Char) (n : Nat)
  | writeError (old_word new_word : List Char)
  | notFound (old_word : List Char)
  | freqHeader
  | freqEntry (word : List Char) (n : Nat)
  deriving DecidableEq

/-- The `argparse.Namespace` fields consumed by `process_file`.  `none` models
an absent optional argument. -/
structure Args where
  word_count : Bool
  char_count : Bool
  line_count : Bool
  find : Option (List Char)
  replace : Option (List Char × List Char)
  word_frequency : Option Int
  deriving DecidableEq

/-- Model of `process_file` (parser.py lines 103-138) on already-loaded file content.
Each `if args.x:` of the source is modelled with Python truthiness: a missing
argument (`none`), an empty `--find` string and `--word-frequency 0` are falsy.
`writeOk` tells whether writing the output file would succeed (the `IOError`
branch of the source).  The second component records whether a write of the
output file was attempted, which the source does exactly when the replacement
count is positive. -/
def process_file (content : List Char) (args : Args) (writeOk : Bool) :
    List ResultLine × Bool :=
  let results : List ResultLine := []
  let results :=
    if args.word_count then results ++ [ResultLine.wordCount (count_words content)]
    else results
  let results :=
    if args.char_count then results ++ [ResultLine.charCount (count_chars content)]
    else results
  let results :=
    if args.line_count then results ++ [ResultLine.lineCount (count_lines content)]
    else results
  let results :=
    match args.find with
    | some w =>
      if w.isEmpty then results
      else results ++ [ResultLine.findResult w (find_word content w)]
    | none => results
  let repRes :=
    match args.replace with
    | some p =>
      let u := replace_word content p.1 p.2
      if 0 < u.2 then
        (if writeOk then results ++ [ResultLine.replaced p.1 p.2 u.2]
         else results ++ [ResultLine.writeError p.1 p.2], true)
      else (results ++ [ResultLine.notFound p.1], false)
    | none => (results, false)
  let results := repRes.1
  let results :=
    match args.word_frequency with
    | some n =>
      if n = 0 then results
      else results ++ (ResultLine.freqHeader ::
        (get_word_frequency content n).map (fun p => ResultLine.freqEntry p.1 p.2))
    | none => results
  (results, repRes.2)

/-! Character-level lemmas. -/

/-- Packing a valid code point and unpacking it is the identity. -/
theorem char_toNat_ofNat_valid (n : Nat) (h : n.isValidChar) :
    (Char.ofNat n).toNat = n := by
  simp [Char.ofNat, h, Char.ofNatAux, Char.toNat, UInt32.toNat]

/-- Characters with equal code points are equal. -/
theorem char_eq_of_toNat {a b : Char} (h : a.toNat = b.toNat) : a = b := by
  apply Char.eq_of_val_eq
  apply UInt32.eq_of_toBitVec_eq
  exact BitVec.eq_of_toNat_eq h

/-- The code point of the lowercased character. -/
theorem lowerChar_toNat (c : Char) :
    (lowerChar c).toNat =
      if 65 ≤ c.toNat ∧ c.toNat ≤ 90 then c.toNat + 32 else c.toNat := by
  unfold lowerChar
  by_cases h : 65 ≤ c.toNat ∧ c.toNat ≤ 90
  · rw [if_pos h, if_pos h, char_toNat_ofNat_valid]
    exact Or.inl (by omega)
  · rw [if_neg h, if_neg h]

/-- Lowercasing a character is idempotent. -/
theorem lowerChar_idem (c : Char) : lowerChar (lowerChar c) = lowerChar c := by
  apply char_eq_of_toNat
  rw [lowerChar_toNat c, lowerChar_toNat (lowerChar c), lowerChar_toNat c]
  split_ifs <;> omega

/-- Lowercasing preserves word-character-ness. -/
theorem isWordChar_lowerChar (c : Char) : isWordChar (lowerChar c) = isWordChar c := by
  unfold isWordChar
  rw [lowerChar_toNat]
  rcases Decidable.em (65 ≤ c.toNat ∧ c.toNat ≤ 90) with h | h
  · rw [if_pos h]
    rw [decide_eq_decide]
    omega
  · rw [if_neg h]

/-- Lowercasing a text is idempotent. -/
theorem toLowerL_idem (s : List Char) : toLowerL (toLowerL s) = toLowerL s := by
  unfold toLowerL
  rw [List.map_map]
  apply List.map_congr_left
  intro c _
  exact lowerChar_idem c

/-- Lowercasing preserves the length of a text. -/
theorem toLowerL_length (s : List Char) : (toLowerL s).length = s.length :=
  List.length_map s lowerChar

/-- Lowercasing commutes with `take`. -/
theorem toLowerL_take (s : List Char) (n : Nat) :
    toLowerL (s.take n) = (toLowerL s).take n :=
  List.map_take lowerChar s n

/-- Lowercasing commutes with `drop`. -/
theorem toLowerL_drop (s : List Char) (n : Nat) :
    toLowerL (s.drop n) = (toLowerL s).drop n :=
  List.map_drop lowerChar s n

/-- Texts with equal lowercasings consist of word characters together. -/
theorem all_word_of_toLowerL_eq :
    ∀ (a b : List Char), toLowerL a = toLowerL b →
      (∀ c ∈ b, isWordChar c = true) → ∀ c ∈ a, isWordChar c = true := by
  intro a
  induction a with
  | nil => intro b _ _ c hc; cases hc
  | cons x xs ih =>
    intro b h hb c hc
    cases b with
    | nil => simp [toLowerL] at h
    | cons y ys =>
      simp only [toLowerL, List.map_cons, List.cons.injEq] at h
      rcases List.mem_cons.mp hc with hc | hc
      · subst hc
        have hy : isWordChar y = true := hb y (by simp)
        rw [← isWordChar_lowerChar c, h.1, isWordChar_lowerChar y]
        exact hy
      · exact ih ys h.2 (fun d hd => hb d (by simp [hd])) c hc

/-! Lemmas about the tokenizer `wordRuns`. -/

/-- The runs of a text starting with a non-word character. -/
theorem wordRuns_cons_nonword (c : Char) (cs : List Char) (hc : isWordChar c = false) :
    wordRuns (c :: cs) = wordRuns cs := by
  show wordRunsAux [] (c :: cs) = wordRunsAux [] cs
  conv_lhs => unfold wordRunsAux
  rw [if_neg (by simp [hc])]
  simp

/-- Unfolding of `wordRunsAux` with a nonempty run in progress: the pending
run is extended by the maximal word-character prefix and emitted. -/
theorem wordRunsAux_pending :
    ∀ (s acc : List Char), acc ≠ [] →
      wordRunsAux acc s =
        (acc.reverse ++ s.takeWhile isWordChar) ::
          wordRuns (s.dropWhile isWordChar) := by
  intro s
  induction s with
  | nil =>
    intro acc hacc
    simp [wordRunsAux, wordRuns, List.isEmpty_iff, hacc]
  | cons c cs ih =>
    intro acc hacc
    by_cases hc : isWordChar c
    · rw [List.takeWhile_cons_of_pos hc, List.dropWhile_cons_of_pos hc]
      unfold wordRunsAux
      rw [if_pos hc]
      rw [ih (c :: acc) (by simp)]
      simp
    · rw [List.takeWhile_cons_of_neg (by simp [hc]), List.dropWhile_cons_of_neg (by simp [hc])]
      unfold wordRunsAux
      rw [if_neg hc, if_neg (by simp [List.isEmpty_iff, hacc]), List.append_nil]
      rw [wordRuns_cons_nonword c cs (by simpa using hc)]
      rfl

/-- The runs of a text starting with a word character: the maximal
word-character prefix, then the runs of the rest. -/
theorem wordRuns_cons_word (c : Char) (cs : List Char) (hc : isWordChar c = true) :
    wordRuns (c :: cs) =
      ((c :: cs).takeWhile isWordChar) ::
        wordRuns ((c :: cs).dropWhile isWordChar) := by
  show wordRunsAux [] (c :: cs) = _
  unfold wordRunsAux
  rw [if_pos hc]
  rw [wordRunsAux_pending cs [c] (by simp)]
  rw [List.takeWhile_cons_of_pos hc, List.dropWhile_cons_of_pos hc]
  simp

/-- Every character of every run comes from the input or the pending run. -/
theorem mem_of_mem_wordRunsAux :
    ∀ (s acc : List Char), ∀ t ∈ wordRunsAux acc s, ∀ c ∈ t, c ∈ s ∨ c ∈ acc := by
  intro s
  induction s with
  | nil =>
    intro acc t ht c hc
    unfold wordRunsAux at ht
    by_cases hacc : acc.isEmpty
    · rw [if_pos hacc] at ht
      cases ht
    · rw [if_neg hacc] at ht
      rcases List.mem_singleton.mp ht with h
      subst h
      exact Or.inr (List.mem_reverse.mp hc)
  | cons x xs ih =>
    intro acc t ht c hc
    unfold wordRunsAux at ht
    by_cases hx : isWordChar x
    · rw [if_pos hx] at ht
      rcases ih (x :: acc) t ht c hc with h | h
      · exact Or.inl (List.mem_cons_of_mem x h)
      · rcases List.mem_cons.mp h with h | h
        · exact Or.inl (by simp [h])
        · exact Or.inr h
    · rw [if_neg hx] at ht
      by_cases hacc : acc.isEmpty
      · rw [if_pos hacc] at ht
        rcases ih [] t ht c hc with h | h
        · exact Or.inl (List.mem_cons_of_mem x h)
        · cases h
      · rw [if_neg hacc] at ht
        rcases List.mem_cons.mp ht with h | h
        · subst h
          exact Or.inr (List.mem_reverse.mp hc)
        · rcases ih [] t h c hc with h2 | h2
          · exact Or.inl (List.mem_cons_of_mem x h2)
          · cases h2

/-- Every run consists of word characters (given a word-character pending run). -/
theorem all_word_of_mem_wordRunsAux :
    ∀ (s acc : List Char), (∀ c ∈ acc, isWordChar c = true) →
      ∀ t ∈ wordRunsAux acc s, ∀ c ∈ t, isWordChar c = true := by
  intro s
  induction s with
  | nil =>
    intro acc hacc t ht c hc
    unfold wordRunsAux at ht
    by_cases he : acc.isEmpty
    · rw [if_pos he] at ht
      cases ht
    · rw [if_neg he] at ht
      rcases List.mem_singleton.mp ht with h
      subst h
      exact hacc c (List.mem_reverse.mp hc)
  | cons x xs ih =>
    intro acc hacc t ht c hc
    unfold wordRunsAux at ht
    by_cases hx : isWordChar x
    · rw [if_pos hx] at ht
      refine ih (x :: acc) ?_ t ht c hc
      intro d hd
      rcases List.mem_cons.mp hd with h | h
      · rw [h]; exact hx
      · exact hacc d h
    · rw [if_neg hx] at ht
      by_cases he : acc.isEmpty
      · rw [if_pos he] at ht
        exact ih [] (by intro d hd; cases hd) t ht c hc
      · rw [if_neg he] at ht
        rcases List.mem_cons.mp ht with h | h
        · subst h
          exact hacc c (List.mem_reverse.mp hc)
        · exact ih [] (by intro d hd; cases hd) t h c hc

/-- Feeding a block of word characters into the scan extends the pending run. -/
theorem wordRunsAux_push :
    ∀ (w : List Char), (∀ c ∈ w, isWordChar c = true) →
      ∀ (z : List Char) (acc : List Char),
        wordRunsAux acc (w ++ z) = wordRunsAux (w.reverse ++ acc) z := by
  intro w
  induction w with
  | nil => intro _ z acc; simp
  | cons c cs ih =>
    intro hw z acc
    have hc : isWordChar c = true := hw c (by simp)
    show wordRunsAux acc (c :: (cs ++ z)) = _
    conv_lhs => unfold wordRunsAux
    rw [if_pos hc]
    rw [ih (fun d hd => hw d (by simp [hd])) z (c :: acc)]
    simp

/-- Tokenizing the lowercased text gives the lowercased runs of the text. -/
theorem wordRunsAux_toLowerL :
    ∀ (s acc : List Char),
      wordRunsAux (toLowerL acc) (toLowerL s) = (wordRunsAux acc s).map toLowerL := by
  intro s
  induction s with
  | nil =>
    intro acc
    show wordRunsAux (toLowerL acc) [] = _
    unfold wordRunsAux
    by_cases hacc : acc.isEmpty
    · have : acc = [] := List.isEmpty_iff.mp hacc
      subst this
      simp [toLowerL]
    · have h1 : (toLowerL acc).isEmpty = false := by
        have : acc ≠ [] := fun h => hacc (by simp [h])
        simp [toLowerL, List.isEmpty_iff, this]
      rw [if_neg (by simp [h1]), if_neg (by simp [List.isEmpty_iff] at hacc ⊢; exact hacc)]
      simp [toLowerL, List.map_reverse]
  | cons c cs ih =>
    intro acc
    show wordRunsAux (toLowerL acc) (lowerChar c :: toLowerL cs) = _
    conv_lhs => unfold wordRunsAux
    conv_rhs => unfold wordRunsAux
    rw [isWordChar_lowerChar c]
    by_cases hc : isWordChar c
    · rw [if_pos hc, if_pos hc]
      have : lowerChar c :: toLowerL acc = toLowerL (c :: acc) := by simp [toLowerL]
      rw [this, ih (c :: acc)]
    · rw [if_neg hc, if_neg hc]
      by_cases hacc : acc.isEmpty
      · have : acc = [] := List.isEmpty_iff.mp hacc
        subst this
        have h0 : toLowerL [] = [] := by simp [toLowerL]
        rw [h0]
        simp only [List.isEmpty_nil, if_true]
        have := ih []
        rw [h0] at this
        exact this
      · have hne : acc ≠ [] := fun h => hacc (by simp [h])
        have h1 : (toLowerL acc).isEmpty = false := by
          simp [toLowerL, List.isEmpty_iff, hne]
        rw [if_neg (by simp [h1]), if_neg (by simp [List.isEmpty_iff] at hacc ⊢; exact hacc)]
        have h0 : toLowerL [] = [] := by simp [toLowerL]
        have := ih []
        rw [h0] at this
        rw [List.map_cons, this]
        simp [toLowerL, List.map_reverse]

/-- Tokens of the lowercased text are the lowercased tokens of the text. -/
theorem wordRuns_toLowerL (s : List Char) :
    wordRuns (toLowerL s) = (wordRuns s).map toLowerL := by
  show wordRunsAux (toLowerL []) (toLowerL s) = _
  exact wordRunsAux_toLowerL s []

/-- The head of the remainder after `dropWhile isWordChar` is not a word
character. -/
theorem isWordOpt_head_dropWhile :
    ∀ (l : List Char), isWordOpt ((l.dropWhile isWordChar).head?) = false := by
  intro l
  induction l with
  | nil => rfl
  | cons c cs ih =>
    by_cases hc : isWordChar c
    · rw [List.dropWhile_cons_of_pos hc]
      exact ih
    · rw [List.dropWhile_cons_of_neg hc]
      simpa [isWordOpt] using (by simpa using hc : isWordChar c = false)

/-- Dropping word characters from a text whose head is not a word character
changes nothing. -/
theorem dropWhile_eq_self_of_head (l : List Char) (h : isWordOpt l.head? = false) :
    l.dropWhile isWordChar = l := by
  cases l with
  | nil => rfl
  | cons c cs =>
    rw [List.dropWhile_cons_of_neg]
    simp only [List.head?_cons, isWordOpt] at h
    simp [h]

/-- If the first `n` characters are word characters and the character after
them is not, then `takeWhile`/`dropWhile` split the text exactly at `n`. -/
theorem takeWhile_eq_take_of_boundary :
    ∀ (n : Nat) (l : List Char),
      (∀ c ∈ l.take n, isWordChar c = true) →
      isWordOpt ((l.drop n).head?) = false →
      l.takeWhile isWordChar = l.take n ∧ l.dropWhile isWordChar = l.drop n := by
  intro n
  induction n with
  | zero =>
    intro l _ h2
    simp only [List.take_zero, List.drop_zero] at *
    refine ⟨?_, dropWhile_eq_self_of_head l h2⟩
    cases l with
    | nil => rfl
    | cons c cs =>
      rw [List.takeWhile_cons_of_neg]
      simp only [List.head?_cons, isWordOpt] at h2
      simp [h2]
  | succ n ih =>
    intro l h1 h2
    cases l with
    | nil => simp
    | cons c cs =>
      have hc : isWordChar c = true := h1 c (by simp)
      simp only [List.take_succ_cons] at h1 ⊢
      simp only [List.drop_succ_cons] at h2 ⊢
      have := ih cs (fun d hd => h1 d (by simp [hd])) h2
      rw [List.takeWhile_cons_of_pos hc, List.dropWhile_cons_of_pos hc, this.1, this.2]
      exact ⟨rfl, rfl⟩

/-! Characterisation of the whole-word matcher for a nonempty all-word-character
pattern. -/

/-- Consequences of a case-insensitive occurrence of the pattern at the current
position: the occurrence fits in the text, and starts and ends with a word
character. -/
theorem lowEq_facts (x s : List Char) (hx : x ≠ [])
    (hw : ∀ c ∈ x, isWordChar c = true)
    (hl : toLowerL (s.take x.length) = toLowerL x) :
    x.length ≤ s.length ∧ isWordOpt s.head? = true ∧
      ∀ prev, isWordOpt (lastOr (s.take x.length) prev) = true := by
  have hlen0 : (s.take x.length).length = x.length := by
    have := congrArg List.length hl
    rwa [toLowerL_length, toLowerL_length] at this
  have hword : ∀ c ∈ s.take x.length, isWordChar c = true :=
    all_word_of_toLowerL_eq _ x hl hw
  have hxpos : 0 < x.length := List.length_pos.mpr hx
  have hle : x.length ≤ s.length := by
    rw [List.length_take] at hlen0
    omega
  refine ⟨hle, ?_, ?_⟩
  · cases s with
    | nil => simp only [List.length_nil] at hle; omega
    | cons c cs =>
      have hc : c ∈ (c :: cs).take x.length := by
        cases hn : x.length with
        | zero => omega
        | succ m => rw [List.take_succ_cons]; simp
      simpa [isWordOpt] using hword c hc
  · intro prev
    have hne : s.take x.length ≠ [] := by
      intro h
      rw [h] at hlen0
      simp at hlen0
      omega
    rcases hg : (s.take x.length).getLast? with _ | d
    · exact absurd (List.getLast?_eq_none_iff.mp hg) hne
    · have hd : d ∈ s.take x.length := List.mem_of_mem_getLast? hg
      simp only [lastOr, hg]
      simpa [isWordOpt] using hword d hd

/-- For a nonempty all-word-character pattern, the matcher fires exactly when
the pattern occurs case-insensitively here, the previous character is not a
word character, and the character after the occurrence is not a word
character. -/
theorem matchAt_iff (x : List Char) (hx : x ≠ [])
    (hw : ∀ c ∈ x, isWordChar c = true) (prev : Option Char) (s : List Char) :
    matchAt x prev s = true ↔
      (toLowerL (s.take x.length) = toLowerL x ∧ isWordOpt prev = false ∧
        isWordOpt ((s.drop x.length).head?) = false) := by
  unfold matchAt boundaryB
  simp only [Bool.and_eq_true, decide_eq_true_eq, bne_iff_ne]
  constructor
  · rintro ⟨⟨hl, hb1⟩, hb2⟩
    obtain ⟨-, hhead, hlast⟩ := lowEq_facts x s hx hw hl
    refine ⟨hl, ?_, ?_⟩
    · rw [hhead] at hb1
      cases h : isWordOpt prev
      · rfl
      · exact absurd h hb1
    · rw [hlast prev] at hb2
      cases h : isWordOpt ((s.drop x.length).head?)
      · rfl
      · exact absurd h.symm hb2
  · rintro ⟨hl, hp, hd⟩
    obtain ⟨-, hhead, hlast⟩ := lowEq_facts x s hx hw hl
    refine ⟨⟨hl, ?_⟩, ?_⟩
    · rw [hp, hhead]
      simp
    · rw [hlast prev, hd]
      simp

/-- A match never fires directly after a word character. -/
theorem matchAt_false_of_prev_word (x : List Char) (hx : x ≠ [])
    (hw : ∀ c ∈ x, isWordChar c = true) (prev : Option Char) (s : List Char)
    (hp : isWordOpt prev = true) : matchAt x prev s = false := by
  cases h : matchAt x prev s
  · rfl
  · obtain ⟨-, hp2, -⟩ := (matchAt_iff x hx hw prev s).mp h
    rw [hp] at hp2
    cases hp2

/-- If the matcher does not fire at the start of a run of word characters,
then that maximal run is not a case-insensitive copy of the pattern. -/
theorem run_ne_of_not_matchAt (x : List Char) (hx : x ≠ [])
    (hw : ∀ c ∈ x, isWordChar c = true) (prev : Option Char)
    (c : Char) (cs : List Char) (hp : isWordOpt prev = false)
    (hm : matchAt x prev (c :: cs) = false) :
    toLowerL ((c :: cs).takeWhile isWordChar) ≠ toLowerL x := by
  intro heq
  have hlen : ((c :: cs).takeWhile isWordChar).length = x.length := by
    have := congrArg List.length heq
    rwa [toLowerL_length, toLowerL_length] at this
  have hpre : (c :: cs).take x.length = (c :: cs).takeWhile isWordChar := by
    obtain ⟨u, hu⟩ := (List.takeWhile_prefix isWordChar (l := c :: cs))
    have h3 := List.take_left ((c :: cs).takeWhile isWordChar) u
    rw [hu, hlen] at h3
    exact h3
  have hdrop : (c :: cs).drop x.length = (c :: cs).dropWhile isWordChar := by
    have h1 : (c :: cs).takeWhile isWordChar ++ (c :: cs).dropWhile isWordChar
        = c :: cs := List.takeWhile_append_dropWhile isWordChar (c :: cs)
    have h2 : (c :: cs).take x.length ++ (c :: cs).drop x.length = c :: cs :=
      List.take_append_drop x.length (c :: cs)
    rw [hpre] at h2
    exact List.append_cancel_left (h2.trans h1.symm)
  have : matchAt x prev (c :: cs) = true := by
    rw [matchAt_iff x hx hw]
    refine ⟨by rw [hpre]; exact heq, hp, ?_⟩
    rw [hdrop]
    exact isWordOpt_head_dropWhile (c :: cs)
  rw [this] at hm
  cases hm

/-! Lemmas about the substitution scan `subnF`. -/

/-- Unfolding of the scan on the empty remainder. -/
theorem subnF_nil (old new : List Char) (fuel : Nat) (prev : Option Char) :
    subnF old new fuel prev [] =
      if old.isEmpty && boundaryB prev none then (new, 1) else ([], 0) := by
  cases fuel <;> rfl

/-- Unfolding of the scan with exhausted fuel. -/
theorem subnF_zero_cons (old new : List Char) (prev : Option Char)
    (c : Char) (cs : List Char) :
    subnF old new 0 prev (c :: cs) = (c :: cs, 0) := rfl

/-- Unfolding of one step of the scan. -/
theorem subnF_succ_cons (old new : List Char) (fuel : Nat) (prev : Option Char)
    (c : Char) (cs : List Char) :
    subnF old new (fuel + 1) prev (c :: cs) =
      if matchAt old prev (c :: cs) then
        if old.isEmpty then
          (new ++ c :: (subnF old new fuel (some c) cs).1,
            (subnF old new fuel (some c) cs).2 + 1)
        else
          (new ++ (subnF old new fuel
              (lastOr ((c :: cs).take old.length) prev)
              ((c :: cs).drop old.length)).1,
            (subnF old new fuel
              (lastOr ((c :: cs).take old.length) prev)
              ((c :: cs).drop old.length)).2 + 1)
      else
        (c :: (subnF old new fuel (some c) cs).1,
          (subnF old new fuel (some c) cs).2) := rfl

/-- A scan that made no substitution copied its input unchanged. -/
theorem subnF_fst_of_snd_zero (old new : List Char) :
    ∀ (fuel : Nat) (s : List Char) (prev : Option Char),
      (subnF old new fuel prev s).2 = 0 → (subnF old new fuel prev s).1 = s := by
  intro fuel
  induction fuel with
  | zero =>
    intro s prev h
    cases s with
    | nil =>
      rw [subnF_nil] at h ⊢
      rcases Decidable.em ((old.isEmpty && boundaryB prev none) = true) with hc | hc
      · rw [if_pos hc] at h; cases h
      · rw [if_neg hc]
    | cons c cs => rfl
  | succ f ih =>
    intro s prev h
    cases s with
    | nil =>
      rw [subnF_nil] at h ⊢
      rcases Decidable.em ((old.isEmpty && boundaryB prev none) = true) with hc | hc
      · rw [if_pos hc] at h; cases h
      · rw [if_neg hc]
    | cons c cs =>
      rw [subnF_succ_cons] at h ⊢
      rcases Decidable.em (matchAt old prev (c :: cs) = true) with hm | hm
      · rw [if_pos hm] at h ⊢
        rcases Decidable.em (old.isEmpty = true) with he | he
        · rw [if_pos he] at h; cases h
        · rw [if_neg he] at h; cases h
      · rw [if_neg hm] at h ⊢
        simp only at h ⊢
        rw [ih cs (some c) h]

/-- Model of `replace_word`: with no matches the text is returned unchanged
(first half of the zero-match contract). -/
theorem replace_word_fst_of_snd_zero (text old_word new_word : List Char)
    (h : (replace_word text old_word new_word).2 = 0) :
    (replace_word text old_word new_word).1 = text :=
  subnF_fst_of_snd_zero old_word new_word (text.length + 1) text none h

/-- On an already-lowercase text, replacing a lowercase word by itself leaves
the text unchanged. -/
theorem subnF_fst_self (x : List Char) (hxl : toLowerL x = x) :
    ∀ (fuel : Nat) (s : List Char) (prev : Option Char), toLowerL s = s →
      (subnF x x fuel prev s).1 = s := by
  intro fuel
  induction fuel with
  | zero =>
    intro s prev hs
    cases s with
    | nil =>
      rw [subnF_nil]
      rcases Decidable.em ((x.isEmpty && boundaryB prev none) = true) with hc | hc
      · rw [if_pos hc]
        simp only [Bool.and_eq_true] at hc
        exact (List.isEmpty_iff.mp hc.1)
      · rw [if_neg hc]
    | cons c cs => rfl
  | succ f ih =>
    intro s prev hs
    cases s with
    | nil =>
      rw [subnF_nil]
      rcases Decidable.em ((x.isEmpty && boundaryB prev none) = true) with hc | hc
      · rw [if_pos hc]
        simp only [Bool.and_eq_true] at hc
        exact (List.isEmpty_iff.mp hc.1)
      · rw [if_neg hc]
    | cons c cs =>
      have hlow : lowerChar c = c ∧ toLowerL cs = cs := by
        simpa [toLowerL] using hs
      rw [subnF_succ_cons]
      rcases Decidable.em (matchAt x prev (c :: cs) = true) with hm | hm
      · rw [if_pos hm]
        rcases Decidable.em (x.isEmpty = true) with he | he
        · rw [if_pos he]
          have hx0 : x = [] := List.isEmpty_iff.mp he
          rw [ih cs (some c) hlow.2, hx0]
          rfl
        · rw [if_neg he]
          have hmatch : toLowerL ((c :: cs).take x.length) = toLowerL x := by
            have := hm
            unfold matchAt at this
            simp only [Bool.and_eq_true, decide_eq_true_eq] at this
            exact this.1.1
          have htake : (c :: cs).take x.length = x := by
            have h1 : toLowerL ((c :: cs).take x.length) = (c :: cs).take x.length := by
              rw [toLowerL_take, hs]
            rw [h1, hxl] at hmatch
            exact hmatch
          have hdroplow : toLowerL ((c :: cs).drop x.length) = (c :: cs).drop x.length := by
            rw [toLowerL_drop, hs]
          simp only
          rw [ih ((c :: cs).drop x.length) _ hdroplow]
          conv_rhs => rw [← List.take_append_drop x.length (c :: cs)]
          rw [htake]
      · rw [if_neg hm]
        simp only
        rw [ih cs (some c) hlow.2]

/-- The empty text has no word runs. -/
theorem wordRuns_nil : wordRuns [] = [] := rfl

/-- The number of substitutions performed by the scan on `s` equals the number
of maximal word-character runs of `s` that are case-insensitive copies of the
(nonempty, all-word-character) pattern — discounting the initial run when the
scan starts in the middle of a word. -/
theorem subnF_snd_count (x y : List Char) (hx : x ≠ [])
    (hw : ∀ c ∈ x, isWordChar c = true) :
    ∀ (fuel : Nat) (s : List Char) (prev : Option Char), s.length ≤ fuel →
      (subnF x y fuel prev s).2 =
        List.countP (fun t => decide (toLowerL t = toLowerL x))
          (wordRuns (if isWordOpt prev then s.dropWhile isWordChar else s)) := by
  have hxe : x.isEmpty = false := by
    cases x with
    | nil => exact absurd rfl hx
    | cons a as => rfl
  intro fuel
  induction fuel with
  | zero =>
    intro s prev hf
    have hs : s = [] := List.eq_nil_of_length_eq_zero (Nat.le_zero.mp hf)
    subst hs
    rw [subnF_nil, hxe]
    simp only [Bool.false_and, if_neg (by simp : ¬(false = true))]
    rcases Decidable.em (isWordOpt prev = true) with hp | hp <;>
      simp [hp, wordRuns_nil]
  | succ f ih =>
    intro s prev hf
    cases s with
    | nil =>
      rw [subnF_nil, hxe]
      simp only [Bool.false_and, if_neg (by simp : ¬(false = true))]
      rcases Decidable.em (isWordOpt prev = true) with hp | hp <;>
        simp [hp, wordRuns_nil]
    | cons c cs =>
      have hfc : cs.length ≤ f := by
        simpa using hf
      have hoptc : isWordOpt (some c) = isWordChar c := rfl
      rw [subnF_succ_cons]
      rcases Decidable.em (matchAt x prev (c :: cs) = true) with hm | hm
      · -- a whole-word occurrence of the pattern starts here
        obtain ⟨hl, hp, hd⟩ := (matchAt_iff x hx hw prev (c :: cs)).mp hm
        obtain ⟨hle, hhead, hlast⟩ := lowEq_facts x (c :: cs) hx hw hl
        have hc : isWordChar c = true := by
          simpa [isWordOpt] using hhead
        have htw := takeWhile_eq_take_of_boundary x.length (c :: cs)
          (all_word_of_toLowerL_eq _ x hl hw) hd
        have hxpos : 0 < x.length := List.length_pos.mpr hx
        have hrest : ((c :: cs).drop x.length).length ≤ f := by
          rw [List.length_drop]
          simp only [List.length_cons]
          omega
        rw [if_pos hm, if_neg (by simp [hxe])]
        have hifR : (if isWordOpt prev = true
            then (c :: cs).dropWhile isWordChar else (c :: cs)) = c :: cs := by
          rw [hp]
          simp
        rw [hifR]
        show (subnF x y f (lastOr ((c :: cs).take x.length) prev)
            ((c :: cs).drop x.length)).2 + 1 = _
        rw [ih ((c :: cs).drop x.length) _ hrest]
        have hifL : (if isWordOpt (lastOr ((c :: cs).take x.length) prev) = true
            then ((c :: cs).drop x.length).dropWhile isWordChar
            else (c :: cs).drop x.length) = (c :: cs).drop x.length := by
          rw [hlast prev]
          simp only [if_pos rfl]
          exact dropWhile_eq_self_of_head _ hd
        rw [hifL]
        rw [wordRuns_cons_word c cs hc, htw.1, htw.2]
        rw [List.countP_cons_of_pos _ _ (by simpa using hl)]
      · -- no match here: one character is copied
        have hmf : matchAt x prev (c :: cs) = false := by
          cases h2 : matchAt x prev (c :: cs)
          · rfl
          · exact absurd h2 hm
        rw [if_neg hm]
        show (subnF x y f (some c) cs).2 = _
        rw [ih cs (some c) hfc]
        rcases Decidable.em (isWordOpt prev = true) with hp | hp
        · have hifR : (if isWordOpt prev = true
              then (c :: cs).dropWhile isWordChar else (c :: cs))
              = (c :: cs).dropWhile isWordChar := by
            rw [hp]
            simp
          rw [hifR]
          rcases Decidable.em (isWordChar c = true) with hc | hc
          · have hifL : (if isWordOpt (some c) = true
                then cs.dropWhile isWordChar else cs) = cs.dropWhile isWordChar := by
              rw [hoptc, hc]
              simp
            rw [hifL, List.dropWhile_cons_of_pos hc]
          · have hcf : isWordChar c = false := by
              cases h2 : isWordChar c
              · rfl
              · exact absurd h2 hc
            have hifL : (if isWordOpt (some c) = true
                then cs.dropWhile isWordChar else cs) = cs := by
              rw [hoptc, hcf]
              simp
            rw [hifL, List.dropWhile_cons_of_neg hc, wordRuns_cons_nonword c cs hcf]
        · have hpf : isWordOpt prev = false := by
            cases h2 : isWordOpt prev
            · rfl
            · exact absurd h2 hp
          have hifR : (if isWordOpt prev = true
              then (c :: cs).dropWhile isWordChar else (c :: cs)) = c :: cs := by
            rw [hpf]
            simp
          rw [hifR]
          rcases Decidable.em (isWordChar c = true) with hc | hc
          · have hifL : (if isWordOpt (some c) = true
                then cs.dropWhile isWordChar else cs) = cs.dropWhile isWordChar := by
              rw [hoptc, hc]
              simp
            rw [hifL]
            rw [wordRuns_cons_word c cs hc]
            rw [List.countP_cons_of_neg _ _
              (by simpa using run_ne_of_not_matchAt x hx hw prev c cs hpf hmf)]
            rw [List.dropWhile_cons_of_pos hc]
          · have hcf : isWordChar c = false := by
              cases h2 : isWordChar c
              · rfl
              · exact absurd h2 hc
            have hifL : (if isWordOpt (some c) = true
                then cs.dropWhile isWordChar else cs) = cs := by
              rw [hoptc, hcf]
              simp
            rw [hifL, wordRuns_cons_nonword c cs hcf]

/-- One scan step on a word character: the run in progress grows. -/
theorem wordRunsAux_cons_word (acc : List Char) (c : Char) (cs : List Char)
    (hc : isWordChar c = true) :
    wordRunsAux acc (c :: cs) = wordRunsAux (c :: acc) cs := by
  conv_lhs => unfold wordRunsAux
  rw [if_pos hc]

/-- One scan step on a non-word character with no run in progress. -/
theorem wordRunsAux_cons_nonword_nil (c : Char) (cs : List Char)
    (hc : isWordChar c = false) :
    wordRunsAux [] (c :: cs) = wordRunsAux [] cs := by
  conv_lhs => unfold wordRunsAux
  rw [if_neg (by simp [hc])]
  simp

/-- One scan step on a non-word character flushes the run in progress. -/
theorem wordRunsAux_cons_nonword_flush (acc : List Char) (hacc : acc ≠ [])
    (c : Char) (cs : List Char) (hc : isWordChar c = false) :
    wordRunsAux acc (c :: cs) = acc.reverse :: wordRunsAux [] cs := by
  conv_lhs => unfold wordRunsAux
  rw [if_neg (by simp [hc]), if_neg (by simp [List.isEmpty_iff, hacc])]

/-- The scan of the empty text flushes the run in progress. -/
theorem wordRunsAux_nil_eq (acc : List Char) :
    wordRunsAux acc [] = if acc.isEmpty then [] else [acc.reverse] := rfl

/-- Structure of the scanned output: when both the pattern `x` and the
replacement `y` are nonempty words (all word characters), the maximal runs of
the output are the maximal runs of the input with every case-insensitive copy
of `x` replaced by `y`.  The invariant relates the pending run of the output
(`accOut`) to the pending run of the input (`accIn`): either the scan is at a
word boundary (both empty), or it is copying inside a run that is not a copy
of `x` (equal pendings), or it has just substituted `y` for a copy of `x`
(output pending `y`, input pending a copy of `x`, next character non-word). -/
theorem subnF_runs (x y : List Char) (hx : x ≠ [])
    (hwx : ∀ c ∈ x, isWordChar c = true)
    (hy : y ≠ []) (hwy : ∀ c ∈ y, isWordChar c = true) :
    ∀ (fuel : Nat) (s : List Char) (prev : Option Char) (accIn accOut : List Char),
      s.length ≤ fuel →
      ((accIn = [] ∧ accOut = [] ∧ isWordOpt prev = false) ∨
        (accIn = accOut ∧ accIn ≠ [] ∧ isWordOpt prev = true ∧
          toLowerL (accIn.reverse ++ s.takeWhile isWordChar) ≠ toLowerL x) ∨
        (accOut = y.reverse ∧ accIn ≠ [] ∧ toLowerL accIn.reverse = toLowerL x ∧
          isWordOpt prev = true ∧ isWordOpt s.head? = false)) →
      wordRunsAux accOut (subnF x y fuel prev s).1 =
        (wordRunsAux accIn s).map
          (fun t => if toLowerL t = toLowerL x then y else t) := by
  have hxe : x.isEmpty = false := by
    cases x with
    | nil => exact absurd rfl hx
    | cons a as => rfl
  have hnil : ∀ (fuel : Nat) (prev : Option Char) (accIn accOut : List Char),
      ((accIn = [] ∧ accOut = [] ∧ isWordOpt prev = false) ∨
        (accIn = accOut ∧ accIn ≠ [] ∧ isWordOpt prev = true ∧
          toLowerL (accIn.reverse ++ List.takeWhile isWordChar []) ≠ toLowerL x) ∨
        (accOut = y.reverse ∧ accIn ≠ [] ∧ toLowerL accIn.reverse = toLowerL x ∧
          isWordOpt prev = true ∧ isWordOpt (List.head? []) = false)) →
      wordRunsAux accOut (subnF x y fuel prev []).1 =
        (wordRunsAux accIn []).map
          (fun t => if toLowerL t = toLowerL x then y else t) := by
    intro fuel prev accIn accOut hinv
    have hsub : (subnF x y fuel prev []).1 = [] := by
      rw [subnF_nil, hxe]
      simp
    rw [hsub]
    rcases hinv with ⟨h1, h2, -⟩ | ⟨h1, h2, -, h4⟩ | ⟨h1, h2, h3, -, -⟩
    · subst h1; subst h2; rfl
    · have hIn : accIn.isEmpty = false := by simp [List.isEmpty_iff, h2]
      have hOut : accOut.isEmpty = false := by
        rw [← h1]; exact hIn
      rw [wordRunsAux_nil_eq, wordRunsAux_nil_eq,
        if_neg (by simp [hOut]), if_neg (by simp [hIn]), List.map_cons, List.map_nil]
      have h4b : ¬ (toLowerL accIn.reverse = toLowerL x) := by
        simpa using h4
      rw [if_neg h4b, h1]
    · have hIn : accIn.isEmpty = false := by simp [List.isEmpty_iff, h2]
      have hOut : accOut.isEmpty = false := by
        rw [h1]
        simp [List.isEmpty_iff, hy]
      rw [wordRunsAux_nil_eq, wordRunsAux_nil_eq,
        if_neg (by simp [hOut]), if_neg (by simp [hIn]), List.map_cons, List.map_nil]
      rw [if_pos h3, h1, List.reverse_reverse]
  intro fuel
  induction fuel with
  | zero =>
    intro s prev accIn accOut hf hinv
    have hs : s = [] := List.eq_nil_of_length_eq_zero (Nat.le_zero.mp hf)
    subst hs
    exact hnil 0 prev accIn accOut hinv
  | succ f ih =>
    intro s prev accIn accOut hf hinv
    cases s with
    | nil => exact hnil (f + 1) prev accIn accOut hinv
    | cons c cs =>
      have hfc : cs.length ≤ f := by simpa using hf
      rcases hinv with ⟨hA1, hA2, hA3⟩ | ⟨hB1, hB2, hB3, hB4⟩ | ⟨hC1, hC2, hC3, hC4, hC5⟩
      · -- at a word boundary
        subst hA1; subst hA2
        rcases Decidable.em (matchAt x prev (c :: cs) = true) with hm | hm
        · obtain ⟨hl, hp, hd⟩ := (matchAt_iff x hx hwx prev (c :: cs)).mp hm
          obtain ⟨hle, hhead, hlast⟩ := lowEq_facts x (c :: cs) hx hwx hl
          have hxpos : 0 < x.length := List.length_pos.mpr hx
          have htl : ((c :: cs).take x.length).length = x.length := by
            have := congrArg List.length hl
            rwa [toLowerL_length, toLowerL_length] at this
          have htne : (c :: cs).take x.length ≠ [] := by
            intro h
            rw [h] at htl
            simp only [List.length_nil] at htl
            omega
          have hword_take : ∀ d ∈ (c :: cs).take x.length, isWordChar d = true :=
            all_word_of_toLowerL_eq _ x hl hwx
          have hrest : ((c :: cs).drop x.length).length ≤ f := by
            rw [List.length_drop]
            simp only [List.length_cons]
            omega
          rw [subnF_succ_cons, if_pos hm, if_neg (by simp [hxe])]
          show wordRunsAux [] (y ++ (subnF x y f
            (lastOr ((c :: cs).take x.length) prev) ((c :: cs).drop x.length)).1) = _
          rw [wordRunsAux_push y hwy _ [], List.append_nil]
          conv_rhs => rw [← List.take_append_drop x.length (c :: cs)]
          rw [wordRunsAux_push _ hword_take _ [], List.append_nil]
          refine ih ((c :: cs).drop x.length) _ _ _ hrest ?_
          refine Or.inr (Or.inr ⟨rfl, ?_, ?_, hlast prev, hd⟩)
          · intro h
            exact htne (by simpa using congrArg List.reverse h)
          · rw [List.reverse_reverse]
            exact hl
        · have hmf : matchAt x prev (c :: cs) = false := by
            cases h2 : matchAt x prev (c :: cs)
            · rfl
            · exact absurd h2 hm
          rw [subnF_succ_cons, if_neg hm]
          show wordRunsAux [] (c :: (subnF x y f (some c) cs).1) = _
          rcases Decidable.em (isWordChar c = true) with hc | hc
          · rw [wordRunsAux_cons_word [] c _ hc, wordRunsAux_cons_word [] c cs hc]
            refine ih cs (some c) [c] [c] hfc ?_
            refine Or.inr (Or.inl ⟨rfl, by simp, hc, ?_⟩)
            have heq : ([c].reverse : List Char) ++ cs.takeWhile isWordChar
                = (c :: cs).takeWhile isWordChar := by
              rw [List.takeWhile_cons_of_pos hc]
              simp
            rw [heq]
            exact run_ne_of_not_matchAt x hx hwx prev c cs hA3 hmf
          · have hcf : isWordChar c = false := by
              cases h2 : isWordChar c
              · rfl
              · exact absurd h2 hc
            rw [wordRunsAux_cons_nonword_nil c _ hcf, wordRunsAux_cons_nonword_nil c cs hcf]
            exact ih cs (some c) [] [] hfc (Or.inl ⟨rfl, rfl, hcf⟩)
      · -- copying inside a run that is not a copy of the pattern
        have hmf : matchAt x prev (c :: cs) = false :=
          matchAt_false_of_prev_word x hx hwx prev (c :: cs) hB3
        have hm : ¬ (matchAt x prev (c :: cs) = true) := by
          rw [hmf]
          simp
        rw [subnF_succ_cons, if_neg hm]
        show wordRunsAux accOut (c :: (subnF x y f (some c) cs).1) = _
        rcases Decidable.em (isWordChar c = true) with hc | hc
        · rw [wordRunsAux_cons_word accOut c _ hc, wordRunsAux_cons_word accIn c cs hc]
          refine ih cs (some c) (c :: accIn) (c :: accOut) hfc ?_
          refine Or.inr (Or.inl ⟨by rw [hB1], by simp, hc, ?_⟩)
          have heq : (c :: accIn).reverse ++ cs.takeWhile isWordChar
              = accIn.reverse ++ (c :: cs).takeWhile isWordChar := by
            rw [List.takeWhile_cons_of_pos hc, List.reverse_cons, List.append_assoc]
            rfl
          rw [heq]
          exact hB4
        · have hcf : isWordChar c = false := by
            cases h2 : isWordChar c
            · rfl
            · exact absurd h2 hc
          have hOut_ne : accOut ≠ [] := by
            rw [← hB1]
            exact hB2
          rw [wordRunsAux_cons_nonword_flush accOut hOut_ne c _ hcf,
            wordRunsAux_cons_nonword_flush accIn hB2 c cs hcf, List.map_cons]
          have hpend : ¬ (toLowerL accIn.reverse = toLowerL x) := by
            rw [List.takeWhile_cons_of_neg (by simp [hcf]), List.append_nil] at hB4
            simpa using hB4
          rw [if_neg hpend, ← hB1]
          rw [ih cs (some c) [] [] hfc (Or.inl ⟨rfl, rfl, hcf⟩)]
      · -- directly after a substitution
        have hcf : isWordChar c = false := by
          simpa [isWordOpt] using hC5
        have hmf : matchAt x prev (c :: cs) = false :=
          matchAt_false_of_prev_word x hx hwx prev (c :: cs) hC4
        have hm : ¬ (matchAt x prev (c :: cs) = true) := by
          rw [hmf]
          simp
        rw [subnF_succ_cons, if_neg hm]
        show wordRunsAux accOut (c :: (subnF x y f (some c) cs).1) = _
        have hOut_ne : accOut ≠ [] := by
          rw [hC1]
          simp [hy]
        rw [wordRunsAux_cons_nonword_flush accOut hOut_ne c _ hcf,
          wordRunsAux_cons_nonword_flush accIn hC2 c cs hcf, List.map_cons]
        rw [if_pos hC3, hC1, List.reverse_reverse]
        rw [ih cs (some c) [] [] hfc (Or.inl ⟨rfl, rfl, hcf⟩)]

/-- Model-level corollary: the runs of the replaced text are the runs of the
input with each case-insensitive copy of the old word replaced by the new
word, for nonempty all-word-character old and new words. -/
theorem replace_word_runs (text x y : List Char) (hx : x ≠ [])
    (hwx : ∀ c ∈ x, isWordChar c = true)
    (hy : y ≠ []) (hwy : ∀ c ∈ y, isWordChar c = true) :
    wordRuns (replace_word text x y).1 =
      (wordRuns text).map (fun t => if toLowerL t = toLowerL x then y else t) := by
  refine subnF_runs x y hx hwx hy hwy (text.length + 1) text none [] []
    (by omega) (Or.inl ⟨rfl, rfl, rfl⟩)

/-- The replacement count is the number of runs of the text that are
case-insensitive copies of the old word. -/
theorem replace_word_snd_count (text x y : List Char) (hx : x ≠ [])
    (hw : ∀ c ∈ x, isWordChar c = true) :
    (replace_word text x y).2 =
      List.countP (fun t => decide (toLowerL t = toLowerL x)) (wordRuns text) := by
  have h := subnF_snd_count x y hx hw (text.length + 1) text none (by omega)
  simpa using h

/-- Counting case-insensitive copies of `x` among the raw runs is counting
exact copies of the lowercased `x` among the tokens. -/
theorem countP_ci_eq_token_count (text x : List Char) :
    List.countP (fun t => decide (toLowerL t = toLowerL x)) (wordRuns text) =
      (pythonTokens text).count (toLowerL x) := by
  unfold pythonTokens
  rw [wordRuns_toLowerL, List.count_eq_countP, List.countP_map]
  apply List.countP_congr
  intro t _
  constructor
  · intro h
    simp only [decide_eq_true_eq] at h
    simp only [Function.comp_apply]
    exact beq_iff_eq.mpr h
  · intro h
    simp only [Function.comp_apply] at h
    simp only [decide_eq_true_eq]
    exact beq_iff_eq.mp h

/-- Membership in the first-occurrence key list. -/
theorem mem_firstOccsAux :
    ∀ (l seen : List (List Char)) (k : List Char),
      k ∈ firstOccsAux seen l ↔ (k ∈ l ∧ k ∉ seen) := by
  intro l
  induction l with
  | nil =>
    intro seen k
    simp [firstOccsAux]
  | cons t ts ih =>
    intro seen k
    unfold firstOccsAux
    by_cases ht : t ∈ seen
    · rw [if_pos ht, ih]
      constructor
      · rintro ⟨h1, h2⟩
        exact ⟨List.mem_cons_of_mem t h1, h2⟩
      · rintro ⟨h1, h2⟩
        rcases List.mem_cons.mp h1 with h | h
        · subst h
          exact absurd ht h2
        · exact ⟨h, h2⟩
    · rw [if_neg ht]
      constructor
      · intro h
        rcases List.mem_cons.mp h with h | h
        · subst h
          exact ⟨by simp, ht⟩
        · have := (ih (t :: seen) k).mp h
          refine ⟨List.mem_cons_of_mem t this.1, fun hk => this.2 (List.mem_cons_of_mem t hk)⟩
      · rintro ⟨h1, h2⟩
        by_cases hk : k = t
        · subst hk
          simp
        · rcases List.mem_cons.mp h1 with h | h
          · exact absurd h hk
          · refine List.mem_cons_of_mem t ((ih (t :: seen) k).mpr ⟨h, ?_⟩)
            intro hmem
            rcases List.mem_cons.mp hmem with h3 | h3
            · exact hk h3
            · exact h2 h3

/-- Finding a present key in a mapped key-value list. -/
theorem find?_map_of_mem (g : List Char → Nat) :
    ∀ (fo : List (List Char)) (k : List Char), k ∈ fo →
      List.find? (fun p => p.1 == k) (fo.map (fun t => (t, g t))) = some (k, g k) := by
  intro fo
  induction fo with
  | nil =>
    intro k hk
    cases hk
  | cons t ts ih =>
    intro k hk
    rw [List.map_cons]
    by_cases ht : t = k
    · subst ht
      rw [List.find?_cons_of_pos _ (by simp)]
    · rw [List.find?_cons_of_neg _ (by simp [ht])]
      rcases List.mem_cons.mp hk with h | h
      · exact absurd h.symm ht
      · exact ih k h

/-- Finding an absent key in a mapped key-value list. -/
theorem find?_map_of_not_mem (g : List Char → Nat) :
    ∀ (fo : List (List Char)) (k : List Char), k ∉ fo →
      List.find? (fun p => p.1 == k) (fo.map (fun t => (t, g t))) = none := by
  intro fo
  induction fo with
  | nil =>
    intro k _
    rfl
  | cons t ts ih =>
    intro k hk
    rw [List.map_cons]
    rw [List.find?_cons_of_neg _ (by simp; intro h; exact hk (by simp [h]))]
    exact ih k (fun h => hk (List.mem_cons_of_mem t h))

/-- Looking a key up in the `Counter` of a list yields its multiplicity,
with absent keys giving 0. -/
theorem counterGet_tally (l : List (List Char)) (k : List Char) :
    counterGet (tally l) k = l.count k := by
  unfold counterGet tally
  by_cases hk : k ∈ l
  · have hmem : k ∈ firstOccsAux [] l := (mem_firstOccsAux l [] k).mpr ⟨hk, by simp⟩
    rw [find?_map_of_mem (fun t => l.count t) _ k hmem]
  · have hmem : k ∉ firstOccsAux [] l := by
      intro h
      exact hk ((mem_firstOccsAux l [] k).mp h).1
    rw [find?_map_of_not_mem (fun t => l.count t) _ k hmem]
    rw [List.count_eq_zero.mpr hk]

/-- Model of `find_word` computes the multiplicity of the lowercased word
among the tokens. -/
theorem find_word_eq_count (text word : List Char) :
    find_word text word = (pythonTokens text).count (toLowerL word) :=
  counterGet_tally (pythonTokens text) (toLowerL word)

/-- Replacing again after a replacement finds nothing, provided old and new
are words (nonempty, word characters only) that differ case-insensitively. -/
theorem replace_word_again (text x y : List Char) (hx : x ≠ [])
    (hwx : ∀ c ∈ x, isWordChar c = true) (hy : y ≠ [])
    (hwy : ∀ c ∈ y, isWordChar c = true) (hne : toLowerL x ≠ toLowerL y) :
    replace_word (replace_word text x y).1 x y = ((replace_word text x y).1, 0) := by
  have hcount : (replace_word (replace_word text x y).1 x y).2 = 0 := by
    rw [replace_word_snd_count _ x y hx hwx]
    rw [replace_word_runs text x y hx hwx hy hwy]
    rw [List.countP_map]
    apply List.countP_eq_zero.mpr
    intro t _
    simp only [Function.comp_apply]
    by_cases hcx : toLowerL t = toLowerL x
    · rw [if_pos hcx]
      simp only [decide_eq_true_eq]
      exact fun h => hne h.symm
    · rw [if_neg hcx]
      simp only [decide_eq_true_eq]
      exact hcx
  have hfst := replace_word_fst_of_snd_zero (replace_word text x y).1 x y hcount
  exact Prod.ext hfst hcount

/-- Every token consists of word characters only. -/
theorem pythonTokens_all_word (text : List Char) :
    ∀ t ∈ pythonTokens text, ∀ c ∈ t, isWordChar c = true :=
  all_word_of_mem_wordRunsAux (toLowerL text) [] (by intro c h; cases h)

/-- Every token is its own lowercasing. -/
theorem pythonTokens_lower (text : List Char) :
    ∀ t ∈ pythonTokens text, toLowerL t = t := by
  intro t ht
  have hchar : ∀ c ∈ t, c ∈ toLowerL text := by
    intro c hc
    rcases mem_of_mem_wordRunsAux (toLowerL text) [] t ht c hc with h | h
    · exact h
    · cases h
  have hfix : ∀ c ∈ t, lowerChar c = c := by
    intro c hc
    rcases List.mem_map.mp (hchar c hc) with ⟨d, -, hd⟩
    rw [← hd]
    exact lowerChar_idem d
  unfold toLowerL
  calc t.map lowerChar = t.map id := List.map_congr_left hfix
  _ = t := List.map_id t

/-- A text with no word characters has no tokens. -/
theorem pythonTokens_eq_nil (text : List Char)
    (h : ∀ c ∈ text, isWordChar c = false) : pythonTokens text = [] := by
  unfold pythonTokens
  have h2 : ∀ c ∈ toLowerL text, isWordChar c = false := by
    intro c hc
    rcases List.mem_map.mp hc with ⟨d, hd, hcd⟩
    rw [← hcd, isWordChar_lowerChar d]
    exact h d hd
  generalize toLowerL text = s at h2
  induction s with
  | nil => rfl
  | cons c cs ih =>
    rw [wordRuns_cons_nonword c cs (h2 c (by simp))]
    exact ih (fun d hd => h2 d (List.mem_cons_of_mem c hd))

/-- Membership in an insertion. -/
theorem mem_insertDesc (p a : List Char × Nat) :
    ∀ (l : List (List Char × Nat)), a ∈ insertDesc p l ↔ a = p ∨ a ∈ l := by
  intro l
  induction l with
  | nil => simp [insertDesc]
  | cons q qs ih =>
    unfold insertDesc
    by_cases hq : q.2 ≤ p.2
    · rw [if_pos hq]
      simp
    · rw [if_neg hq]
      simp only [List.mem_cons, ih]
      tauto

/-- Inserting is a permutation of consing. -/
theorem insertDesc_perm (p : List Char × Nat) :
    ∀ (l : List (List Char × Nat)), (insertDesc p l).Perm (p :: l) := by
  intro l
  induction l with
  | nil => simp [insertDesc]
  | cons q qs ih =>
    unfold insertDesc
    by_cases hq : q.2 ≤ p.2
    · rw [if_pos hq]
    · rw [if_neg hq]
      exact (ih.cons q).trans (List.Perm.swap p q qs)

/-- Sorting is a permutation. -/
theorem sortDesc_perm : ∀ (m : List (List Char × Nat)), (sortDesc m).Perm m := by
  intro m
  induction m with
  | nil => exact List.Perm.refl []
  | cons p ps ih =>
    exact (insertDesc_perm p (sortDesc ps)).trans (ih.cons p)

/-- Sorting preserves the length. -/
theorem sortDesc_length (m : List (List Char × Nat)) :
    (sortDesc m).length = m.length :=
  (sortDesc_perm m).length_eq

/-- Inserting into a list sorted by non-increasing count keeps it sorted. -/
theorem insertDesc_pairwise (p : List Char × Nat) :
    ∀ (l : List (List Char × Nat)), l.Pairwise (fun a b => b.2 ≤ a.2) →
      (insertDesc p l).Pairwise (fun a b => b.2 ≤ a.2) := by
  intro l
  induction l with
  | nil =>
    intro _
    simp [insertDesc]
  | cons q qs ih =>
    intro hl
    rcases List.pairwise_cons.mp hl with ⟨hq, hqs⟩
    unfold insertDesc
    by_cases hle : q.2 ≤ p.2
    · rw [if_pos hle]
      refine List.pairwise_cons.mpr ⟨?_, hl⟩
      intro b hb
      rcases List.mem_cons.mp hb with h | h
      · subst h
        exact hle
      · exact le_trans (hq b h) hle
    · rw [if_neg hle]
      refine List.pairwise_cons.mpr ⟨?_, ih hqs⟩
      intro b hb
      rcases (mem_insertDesc p b qs).mp hb with h | h
      · subst h
        omega
      · exact hq b h

/-- The sorted table is ordered by non-increasing count. -/
theorem sortDesc_pairwise :
    ∀ (m : List (List Char × Nat)), (sortDesc m).Pairwise (fun a b => b.2 ≤ a.2) := by
  intro m
  induction m with
  | nil => simp [sortDesc]
  | cons p ps ih => exact insertDesc_pairwise p (sortDesc ps) ih

/-- Model of `most_common(n)` returns at most `n` entries. -/
theorem most_common_length_le (m : List (List Char × Nat)) (n : Int) :
    (most_common m n).length ≤ n.toNat := by
  unfold most_common
  exact List.length_take_le n.toNat _

/-- Model of `most_common(n)` with non-positive `n` is empty. -/
theorem most_common_nonpos (m : List (List Char × Nat)) (n : Int) (hn : n ≤ 0) :
    most_common m n = [] := by
  unfold most_common
  rw [Int.toNat_of_nonpos hn, List.take_zero]

/-- Model of `most_common` output is ordered by non-increasing count. -/
theorem most_common_sorted (m : List (List Char × Nat)) (n : Int) :
    (most_common m n).Pairwise (fun a b => b.2 ≤ a.2) := by
  unfold most_common
  exact List.Pairwise.sublist (List.take_sublist _ _) (sortDesc_pairwise m)

/-- When the table has at most `n` entries, `most_common(n)` returns all of
them (as a permutation). -/
theorem most_common_all_of_le (m : List (List Char × Nat)) (n : Int)
    (h : m.length ≤ n.toNat) : (most_common m n).Perm m := by
  unfold most_common
  rw [List.take_of_length_le (by rw [sortDesc_length]; exact h)]
  exact sortDesc_perm m

/-- Every entry of `most_common` comes from the table. -/
theorem mem_of_mem_most_common (m : List (List Char × Nat)) (n : Int)
    (p : List Char × Nat) (hp : p ∈ most_common m n) : p ∈ m := by
  unfold most_common at hp
  exact (sortDesc_perm m).mem_iff.mp (List.Sublist.mem hp (List.take_sublist _ _))

/-- The key of every table entry occurs in the tallied list. -/
theorem mem_of_mem_tally (l : List (List Char)) (p : List Char × Nat)
    (hp : p ∈ tally l) : p.1 ∈ l := by
  unfold tally at hp
  rcases List.mem_map.mp hp with ⟨t, ht, hpt⟩
  rw [← hpt]
  exact ((mem_firstOccsAux l [] t).mp ht).1

/-- Appending under a conditional: the result list grows by a block that is
empty when the condition fails. -/
theorem append_ite_block (b : Prop) [Decidable b] (rs a : List ResultLine) :
    (if b then rs ++ a else rs) = rs ++ (if b then a else []) := by
  split_ifs <;> simp

set_option maxHeartbeats 1000000

/-- The dispatcher's result list decomposes into one block per operation, in
the fixed source order, each block depending only on its own flag; the write
flag depends only on the replace request. -/
theorem process_file_decomp (content : List Char) (args : Args) (writeOk : Bool) :
    process_file content args writeOk =
      ((if args.word_count then [ResultLine.wordCount (count_words content)] else []) ++
        (if args.char_count then [ResultLine.charCount (count_chars content)] else []) ++
        (if args.line_count then [ResultLine.lineCount (count_lines content)] else []) ++
        (match args.find with
          | some w =>
            if w.isEmpty then [] else [ResultLine.findResult w (find_word content w)]
          | none => []) ++
        (match args.replace with
          | some p =>
            if 0 < (replace_word content p.1 p.2).2 then
              (if writeOk then
                [ResultLine.replaced p.1 p.2 (replace_word content p.1 p.2).2]
              else [ResultLine.writeError p.1 p.2])
            else [ResultLine.notFound p.1]
          | none => []) ++
        (match args.word_frequency with
          | some n =>
            if n = 0 then []
            else ResultLine.freqHeader ::
              (get_word_frequency content n).map
                (fun p => ResultLine.freqEntry p.1 p.2)
          | none => []),
        (match args.replace with
          | some p => if 0 < (replace_word content p.1 p.2).2 then true else false
          | none => false)) := by
  rcases args with ⟨wc, cc, lc, fd, rp, wf⟩
  unfold process_file
  simp only
  rcases fd with _ | w <;> rcases rp with _ | p <;> rcases wf with _ | n <;>
    simp only [append_ite_block] <;> split_ifs <;>
      simp [List.append_assoc]

set_option maxHeartbeats 200000

/-! The claims. -/

/-- C1, counterexample: `replace_word("Cat", "cat", "cat")` returns the text
`"cat"`, not the original `"Cat"` — the case-insensitive match is replaced by
the new word verbatim, so the text content changes and the round-trip claim
fails as stated. -/
theorem c1_counterexample :
    (replace_word "Cat".toList "cat".toList "cat".toList).1 ≠ "Cat".toList := by
  decide

/-- C1, amended: for a text and a word that are unchanged by lowercasing, with
the word nonempty and consisting of word characters, `replace_word(T, W, W)`
returns `T` unchanged together with the number of occurrences of `W` among the
tokens of `T` (that is, `find_word(T, W)`). -/
theorem c1_roundtrip_lower (T W : List Char) (hT : toLowerL T = T)
    (hW : toLowerL W = W) (hne : W ≠ []) (hw : ∀ c ∈ W, isWordChar c = true) :
    replace_word T W W = (T, find_word T W) := by
  have h2 : (replace_word T W W).2 = find_word T W := by
    rw [replace_word_snd_count T W W hne hw, countP_ci_eq_token_count T W,
      find_word_eq_count]
  have h1 : (replace_word T W W).1 = T := subnF_fst_self W hW (T.length + 1) T none hT
  exact Prod.ext h1 h2

/-- C1, witness for the amended round-trip at a concrete input. -/
theorem c1_roundtrip_lower_witness :
    replace_word "the cat sat".toList "cat".toList "cat".toList =
      ("the cat sat".toList, find_word "the cat sat".toList "cat".toList) :=
  c1_roundtrip_lower ("the cat sat".toList) ("cat".toList)
    (by decide) (by decide) (by decide) (by decide)

/-- C2, counterexample: the flag value `N = 0` is supplied but Python
truthiness makes `if args.word_frequency:` false, so no header (and nothing at
all) is appended, contradicting the claim for arbitrary integers `N`. -/
theorem c2_counterexample :
    (Args.mk false false false none none (some 0)).word_frequency = some 0 ∧
      (process_file "a a".toList (Args.mk false false false none none (some 0))
        true).1 = [] := by
  constructor
  · rfl
  · rfl

/-- C2, amended: whenever a nonzero integer `N` is supplied with the flag, the
dispatcher appends a header line followed by one line per (word, count) pair
in ranked order, after the blocks of the other requested operations. -/
theorem c2_freq_block (content : List Char) (args : Args) (writeOk : Bool)
    (n : Int) (hn : args.word_frequency = some n) (hnz : n ≠ 0) :
    (process_file content args writeOk).1 =
      (process_file content
        (Args.mk args.word_count args.char_count args.line_count args.find
          args.replace none) writeOk).1 ++
        ResultLine.freqHeader ::
          (get_word_frequency content n).map
            (fun p => ResultLine.freqEntry p.1 p.2) := by
  rw [process_file_decomp, process_file_decomp]
  simp only [hn]
  rw [if_neg hnz]
  simp [List.append_assoc]

/-- C2, witness for the amended claim at a concrete input. -/
theorem c2_freq_block_witness :
    (process_file "b a a".toList (Args.mk false false false none none (some 2))
        true).1 =
      (process_file "b a a".toList (Args.mk false false false none none none)
        true).1 ++
        ResultLine.freqHeader ::
          (get_word_frequency "b a a".toList 2).map
            (fun p => ResultLine.freqEntry p.1 p.2) :=
  c2_freq_block ("b a a".toList)
    (Args.mk false false false none none (some 2)) true 2 rfl (by decide)

/-- C3, counterexample: with the distinct words `x = "cat"` and `y = "CAT"`,
the second replacement matches the `"CAT"` introduced by the first one
(matching is case-insensitive), so it does not return a zero count. -/
theorem c3_counterexample :
    "cat".toList ≠ "CAT".toList ∧
      replace_word (replace_word "cat".toList "cat".toList "CAT".toList).1
          "cat".toList "CAT".toList ≠
        ((replace_word "cat".toList "cat".toList "CAT".toList).1, 0) := by
  decide

/-- C3, amended: for nonempty words `x` and `y` consisting of word characters
that are distinct case-insensitively, a second replacement finds nothing:
`replace_word(replace_word(T, x, y).newText, x, y)` is the pair of that text
and 0. -/
theorem c3_idempotent (T x y : List Char) (hx : x ≠ [])
    (hwx : ∀ c ∈ x, isWordChar c = true) (hy : y ≠ [])
    (hwy : ∀ c ∈ y, isWordChar c = true) (hne : toLowerL x ≠ toLowerL y) :
    replace_word (replace_word T x y).1 x y = ((replace_word T x y).1, 0) :=
  replace_word_again T x y hx hwx hy hwy hne

/-- C3, witness for the amended idempotence at a concrete input. -/
theorem c3_idempotent_witness :
    replace_word (replace_word "the cat".toList "cat".toList "dog".toList).1
        "cat".toList "dog".toList =
      ((replace_word "the cat".toList "cat".toList "dog".toList).1, 0) :=
  c3_idempotent ("the cat".toList) ("cat".toList) ("dog".toList)
    (by decide) (by decide) (by decide) (by decide) (by decide)

/-- C4: whole-word boundary matching on the spec's example — replacing
`"cat"` with `"dog"` in `"concatenate cats cat"` replaces only the standalone
token, yielding `"concatenate cats dog"` with count exactly 1. -/
theorem c4_boundary :
    replace_word "concatenate cats cat".toList "cat".toList "dog".toList =
      ("concatenate cats dog".toList, 1) := by
  decide

/-- C5: when the replacement makes zero matches the returned text equals the
input unchanged; in that case the dispatcher attempts no write of the output
file and appends a not-found result line instead. -/
theorem c5_zero_match (T old new : List Char) (args : Args) (writeOk : Bool)
    (h : (replace_word T old new).2 = 0) :
    (replace_word T old new).1 = T ∧
      (args.replace = some (old, new) →
        (process_file T args writeOk).2 = false ∧
          ResultLine.notFound old ∈ (process_file T args writeOk).1) := by
  refine ⟨replace_word_fst_of_snd_zero T old new h, ?_⟩
  intro hrep
  rw [process_file_decomp]
  simp only [hrep]
  constructor
  · simp [h]
  · simp [List.mem_append, h]

/-- C5, witness at a concrete input with zero matches. -/
theorem c5_zero_match_witness :
    (replace_word "b".toList "a".toList "c".toList).1 = "b".toList ∧
      ((Args.mk false false false none (some ("a".toList, "c".toList))
          none).replace = some ("a".toList, "c".toList) →
        (process_file "b".toList
            (Args.mk false false false none (some ("a".toList, "c".toList)) none)
            true).2 = false ∧
          ResultLine.notFound "a".toList ∈
            (process_file "b".toList
              (Args.mk false false false none (some ("a".toList, "c".toList)) none)
              true).1) :=
  c5_zero_match ("b".toList) ("a".toList) ("c".toList)
    (Args.mk false false false none (some ("a".toList, "c".toList)) none) true
    (by decide)

/-- C6: the frequency table has at most `n` entries, is ordered by descending
count, contains all distinct tokens (as a permutation of the tally) when fewer
than `n` exist, and is empty when `n ≤ 0` or the text has no word characters. -/
theorem c6_frequency (T : List Char) (n : Int) :
    (get_word_frequency T n).length ≤ n.toNat ∧
      (get_word_frequency T n).Pairwise (fun a b => b.2 ≤ a.2) ∧
      (n ≤ 0 → get_word_frequency T n = []) ∧
      ((∀ c ∈ T, isWordChar c = false) → get_word_frequency T n = []) ∧
      ((tally (pythonTokens T)).length ≤ n.toNat →
        (get_word_frequency T n).Perm (tally (pythonTokens T))) := by
  refine ⟨most_common_length_le _ _, most_common_sorted _ _, ?_, ?_, ?_⟩
  · intro hn
    exact most_common_nonpos _ _ hn
  · intro h
    unfold get_word_frequency
    rw [pythonTokens_eq_nil T h]
    show most_common [] n = []
    unfold most_common
    rw [show sortDesc [] = [] from rfl]
    simp
  · exact most_common_all_of_le _ _

/-- C6, witness: a non-positive `n` yields the empty table. -/
theorem c6_frequency_witness : get_word_frequency "a".toList 0 = [] :=
  (c6_frequency ("a".toList) 0).2.2.1 (by decide)

/-- C7: `find_word` reports the multiplicity of the lowercased word among the
tokens, the casing of the word does not affect the result, and a word
containing a non-word character yields 0 rather than failing. -/
theorem c7_find_word (T W : List Char) :
    find_word T W = (pythonTokens T).count (toLowerL W) ∧
      find_word T (toLowerL W) = find_word T W ∧
      ((∃ c ∈ W, isWordChar c = false) → find_word T W = 0) := by
  refine ⟨find_word_eq_count T W, ?_, ?_⟩
  · unfold find_word
    rw [toLowerL_idem]
  · rintro ⟨c, hc, hcw⟩
    rw [find_word_eq_count]
    apply List.count_eq_zero.mpr
    intro hmem
    have hall := pythonTokens_all_word T _ hmem
    have hmemc : lowerChar c ∈ toLowerL W := List.mem_map_of_mem lowerChar hc
    have hw := hall (lowerChar c) hmemc
    rw [isWordChar_lowerChar] at hw
    rw [hcw] at hw
    cases hw

/-- C7, witness: a target word containing a non-word character reports 0. -/
theorem c7_find_word_witness : find_word "the cat".toList "cat!".toList = 0 :=
  (c7_find_word ("the cat".toList) ("cat!".toList)).2.2 (by decide)

/-- C8: line counting on the spec's examples — the empty text has 0 lines,
`"a"` has 1, `"a\nb"` has 2, and a trailing newline adds no extra segment. -/
theorem c8_count_lines :
    count_lines "".toList = 0 ∧ count_lines "a".toList = 1 ∧
      count_lines "a\nb".toList = 2 ∧ count_lines "a\nb\n".toList = 2 := by
  decide

/-- C9: the dispatcher produces the per-operation blocks in the fixed source
order — word count, char count, line count, find, replace, top-N frequency —
each block depending only on its own flag (so the order in which flags were
supplied is irrelevant), and an all-absent request produces no results. -/
theorem c9_fixed_order (content : List Char) (args : Args) (writeOk : Bool) :
    (process_file content args writeOk).1 =
      ((if args.word_count then [ResultLine.wordCount (count_words content)] else []) ++
        (if args.char_count then [ResultLine.charCount (count_chars content)] else []) ++
        (if args.line_count then [ResultLine.lineCount (count_lines content)] else []) ++
        (match args.find with
          | some w =>
            if w.isEmpty then [] else [ResultLine.findResult w (find_word content w)]
          | none => []) ++
        (match args.replace with
          | some p =>
            if 0 < (replace_word content p.1 p.2).2 then
              (if writeOk then
                [ResultLine.replaced p.1 p.2 (replace_word content p.1 p.2).2]
              else [ResultLine.writeError p.1 p.2])
            else [ResultLine.notFound p.1]
          | none => []) ++
        (match args.word_frequency with
          | some n =>
            if n = 0 then []
            else ResultLine.freqHeader ::
              (get_word_frequency content n).map
                (fun p => ResultLine.freqEntry p.1 p.2)
          | none => [])) ∧
      (process_file content (Args.mk false false false none none none) writeOk).1
        = [] := by
  constructor
  · rw [process_file_decomp]
  · rfl

/-- C10: every word in the frequency table, and every token underlying the
word counts and searches, is its own lowercasing. -/
theorem c10_lowercase_invariant (T : List Char) (n : Int) :
    (∀ p ∈ get_word_frequency T n, toLowerL p.1 = p.1) ∧
      (∀ t ∈ pythonTokens T, toLowerL t = t) := by
  constructor
  · intro p hp
    have h1 := mem_of_mem_most_common _ _ p hp
    have h2 := mem_of_mem_tally _ p h1
    exact pythonTokens_lower T _ h2
  · exact pythonTokens_lower T

/-- C10, witness at a concrete input containing uppercase letters. -/
theorem c10_lowercase_invariant_witness :
    toLowerL "the".toList = "the".toList ∧ toLowerL "cat".toList = "cat".toList :=
  ⟨(c10_lowercase_invariant ("The The cat".toList) 1).1 ("the".toList, 2) (by decide),
    (c10_lowercase_invariant ("The The cat".toList) 1).2 ("cat".toList) (by decide)⟩
